import Mathlib

/-!
Shallow embedding of `src/modelling/part-4/gen_data.py`.

The script seeds numpy's global pseudo-random source, draws a uniform
N x F matrix over [-1, 2) rounded to 4 decimal places, computes a
"Demand" value per row with a fixed nonlinear formula plus Gaussian
noise (mean 4, sd 2), rounds it to the nearest integer with the
half-to-even convention of Python's builtin `round`, attaches a 1-based
"Observation" index, and writes a CSV.

Floating-point values are modelled as rationals.  The seeded random
source is modelled abstractly: a `RandomSource` provides the sequence of
primitive draws the seeded generator would emit; each primitive call
consumes one position of a shared counter, which captures the order in
which the program consumes randomness.  `np.random.uniform(lo, hi)`
produces `lo + (hi - lo) * u` with `u` the raw draw in [0, 1), exactly
numpy's construction; `np.random.normal(4, 2)` produces `4 + 2 * g`
with `g` a standard-normal draw.  `math.sin` is modelled by an abstract
function parameter `sinQ`.
-/

namespace GenData

/-- Round to the nearest integer with ties going to the even integer:
the semantics of CPython's builtin `round` (and of numpy rounding),
which the script uses for the final Demand value. -/
def roundHalfEven (q : ℚ) : ℤ :=
  if q - ⌊q⌋ < 1/2 then ⌊q⌋
  else if 1/2 < q - ⌊q⌋ then ⌊q⌋ + 1
  else if ⌊q⌋ % 2 = 0 then ⌊q⌋ else ⌊q⌋ + 1

/-- Rounding to 4 decimal places, as `.round(4)` does on the sampled
feature matrix. -/
def round4 (q : ℚ) : ℚ := (roundHalfEven (q * 10000) : ℚ) / 10000

/-- The seeded pseudo-random source, abstractly: `unif k` is the raw
uniform [0,1) value emitted if the k-th primitive draw is a uniform
call, `gauss k` the standard-normal value if it is a normal call. -/
structure RandomSource where
  unif : ℕ → ℚ
  gauss : ℕ → ℚ

/-- The global random state: the seeded source plus the position of the
next primitive draw.  `np.random.seed` resets the position to 0. -/
structure RandomState where
  src : RandomSource
  pos : ℕ

/-- One call of `np.random.normal(mu, sigma)`: consumes one draw. -/
def normalDraw (mu sigma : ℚ) (st : RandomState) : ℚ × RandomState :=
  (mu + sigma * st.src.gauss st.pos, ⟨st.src, st.pos + 1⟩)

/-- One call of `np.random.uniform(lo, hi, size=(n, f))`: fills the
n x f matrix in row-major order, consuming n * f draws; each entry is
`lo + (hi - lo) * u` with `u` the raw [0,1) draw. -/
def uniformMatrix (lo hi : ℚ) (n f : ℕ) (st : RandomState) :
    List (List ℚ) × RandomState :=
  (((List.range n).map fun i => (List.range f).map fun j =>
      lo + (hi - lo) * st.src.unif (st.pos + (i * f + j))),
   ⟨st.src, st.pos + n * f⟩)

/-- The nonlinear transform inside `polynomial_function`:
`2 + 0.3*fs[0] + 0.5*fs[1]**3 + 0.7*fs[2]*fs[3] + 0.9*(fs[1]+fs[3]) + sin(fs[4])`. -/
def polyVal (sinQ : ℚ → ℚ) (fs : List ℚ) : ℚ :=
  2 + 3/10 * fs.getD 0 0 + 1/2 * (fs.getD 1 0) ^ 3
    + 7/10 * (fs.getD 2 0) * (fs.getD 3 0)
    + 9/10 * (fs.getD 1 0 + fs.getD 3 0)
    + sinQ (fs.getD 4 0)

/-- `polynomial_function(row)`: computes the nonlinear value from the
row's feature values, draws one noise term `np.random.normal(4, 2)`,
and returns `round(12 * val + err)`. -/
def polynomial_function (sinQ : ℚ → ℚ) (row : List ℚ) (st : RandomState) :
    ℤ × RandomState :=
  let val := polyVal sinQ row
  let e := normalDraw 4 2 st
  (roundHalfEven (12 * val + e.1), e.2)

/-- `data.apply(polynomial_function, axis=1)`: applies the row function
to each row in order, threading the global random state. -/
def applyRows (sinQ : ℚ → ℚ) : List (List ℚ) → RandomState → List ℤ × RandomState
  | [], st => ([], st)
  | r :: rs, st =>
    let p := polynomial_function sinQ r st
    let q := applyRows sinQ rs p.2
    (p.1 :: q.1, q.2)

/-- The assembled table: rounded feature matrix, Demand column, and the
`Observation` index `pd.RangeIndex(1, len(data) + 1)`. -/
@[ext]
structure Dataset where
  features : List (List ℚ)
  demand : List ℤ
  obs : List ℕ
deriving DecidableEq

/-- The whole generation run: seed (position 0), sample the uniform
n x f matrix and round it to 4 decimals, compute the Demand column by
the row-wise apply, attach the 1-based index. -/
def generate (sinQ : ℚ → ℚ) (src : RandomSource) (n f : ℕ) (lo hi : ℚ) : Dataset :=
  let st0 : RandomState := ⟨src, 0⟩
  let m := uniformMatrix lo hi n f st0
  let features := m.1.map (List.map round4)
  { features := features
    demand := (applyRows sinQ features m.2).1
    obs := List.range' 1 n }

/-- Header cells of the CSV written by `data.to_csv(..., index=True)`:
the index label, the feature column names, then Demand. -/
def headerCells (f : ℕ) : List String :=
  "Observation" :: (((List.range f).map fun i => "Feature_" ++ toString (i + 1)) ++ ["Demand"])

/-- The comma-separated header line of the output file. -/
def headerLine (f : ℕ) : String :=
  String.intercalate "," (headerCells f)

/-- A zero-valued stand-in for `math.sin`, used to instantiate the
abstract parameter on concrete runs. -/
def sinZero : ℚ → ℚ := fun _ => 0

/-- A random source all of whose draws are 0. -/
def zeroSource : RandomSource := ⟨fun _ => 0, fun _ => 0⟩

/-! ## Helper lemmas about rounding -/

theorem roundHalfEven_cases (q : ℚ) :
    roundHalfEven q = ⌊q⌋ ∨ roundHalfEven q = ⌊q⌋ + 1 := by
  unfold roundHalfEven
  split_ifs <;> simp

theorem roundHalfEven_halfway_even (q : ℚ) (h : q - ⌊q⌋ = 1/2) :
    roundHalfEven q % 2 = 0 := by
  unfold roundHalfEven
  rw [h]
  norm_num
  split_ifs with h1 <;> omega

theorem roundHalfEven_eq_top (q : ℚ) (hq : q < 20000) :
    roundHalfEven q = 20000 ↔ 39999/2 ≤ q := by
  have hfl : ⌊q⌋ < 20000 := Int.floor_lt.mpr (by exact_mod_cast hq)
  have hlo : (⌊q⌋ : ℚ) ≤ q := Int.floor_le q
  constructor
  · intro h
    unfold roundHalfEven at h
    split_ifs at h with h1 h2 h3
    · omega
    · have h19 : ⌊q⌋ = 19999 := by omega
      rw [h19] at h2
      push_cast at h2
      linarith
    · omega
    · have h19 : ⌊q⌋ = 19999 := by omega
      push_cast [h19] at h1
      linarith
  · intro h
    have h19 : ⌊q⌋ = 19999 := by
      rw [Int.floor_eq_iff]
      constructor
      · push_cast
        linarith
      · push_cast
        linarith
    unfold roundHalfEven
    rw [h19]
    split_ifs with h1 h2 h3
    · push_cast at h1
      linarith
    · norm_num
    · omega
    · norm_num

theorem round4_mem_Icc {x : ℚ} (h0 : -1 ≤ x) (h1 : x < 2) :
    -1 ≤ round4 x ∧ round4 x ≤ 2 := by
  have hfl : (-10000 : ℤ) ≤ ⌊x * 10000⌋ := Int.le_floor.mpr (by push_cast; linarith)
  have hfu : ⌊x * 10000⌋ < 20000 := Int.floor_lt.mpr (by push_cast; linarith)
  have hge : (-10000 : ℤ) ≤ roundHalfEven (x * 10000) := by
    rcases roundHalfEven_cases (x * 10000) with h | h <;> omega
  have hle : roundHalfEven (x * 10000) ≤ 20000 := by
    rcases roundHalfEven_cases (x * 10000) with h | h <;> omega
  unfold round4
  constructor
  · rw [le_div_iff₀ (by norm_num : (0:ℚ) < 10000)]
    calc (-1 : ℚ) * 10000 = ((-10000 : ℤ) : ℚ) := by norm_num
    _ ≤ _ := by exact_mod_cast hge
  · rw [div_le_iff₀ (by norm_num : (0:ℚ) < 10000)]
    calc ((roundHalfEven (x * 10000) : ℤ) : ℚ) ≤ ((20000 : ℤ) : ℚ) := by exact_mod_cast hle
    _ = 2 * 10000 := by norm_num

theorem round4_eq_two_iff {x : ℚ} (h1 : x < 2) :
    round4 x = 2 ↔ 39999/20000 ≤ x := by
  have h2 : x * 10000 < 20000 := by linarith
  have hiff := roundHalfEven_eq_top (x * 10000) h2
  unfold round4
  rw [div_eq_iff (by norm_num : (10000:ℚ) ≠ 0)]
  constructor
  · intro h
    have hz : roundHalfEven (x * 10000) = 20000 := by exact_mod_cast h
    have := hiff.mp hz
    linarith
  · intro h
    have hz : roundHalfEven (x * 10000) = 20000 := hiff.mpr (by linarith)
    rw [hz]
    norm_num

theorem round4_mul_den (q : ℚ) : (round4 q * 10000).den = 1 := by
  unfold round4
  rw [div_mul_cancel₀ _ (by norm_num : (10000:ℚ) ≠ 0)]
  exact Rat.den_intCast _

/-! ## Helper lemmas about the row-wise apply and the sampled matrix -/

theorem applyRows_snd (sinQ : ℚ → ℚ) (rows : List (List ℚ)) :
    ∀ st : RandomState, (applyRows sinQ rows st).2 = ⟨st.src, st.pos + rows.length⟩ := by
  induction rows with
  | nil => intro st; simp [applyRows]
  | cons r rs ih =>
    intro st
    simp only [applyRows, polynomial_function, normalDraw]
    rw [ih ⟨st.src, st.pos + 1⟩]
    simp only [List.length_cons]
    congr 1
    omega

theorem applyRows_length (sinQ : ℚ → ℚ) (rows : List (List ℚ)) :
    ∀ st : RandomState, (applyRows sinQ rows st).1.length = rows.length := by
  induction rows with
  | nil => intro st; simp [applyRows]
  | cons r rs ih =>
    intro st
    simp only [applyRows, List.length_cons]
    rw [ih]

theorem applyRows_get? (sinQ : ℚ → ℚ) (rows : List (List ℚ)) :
    ∀ (st : RandomState) (i : ℕ),
      (applyRows sinQ rows st).1.get? i = (rows.get? i).map fun r =>
        roundHalfEven (12 * polyVal sinQ r + (4 + 2 * st.src.gauss (st.pos + i))) := by
  induction rows with
  | nil => intro st i; simp [applyRows]
  | cons r rs ih =>
    intro st i
    cases i with
    | zero => simp [applyRows, polynomial_function, normalDraw]
    | succ n =>
      simp only [applyRows, polynomial_function, normalDraw, List.get?]
      rw [ih ⟨st.src, st.pos + 1⟩ n]
      have hpos : st.pos + 1 + n = st.pos + (n + 1) := by omega
      simp only [hpos]

theorem generate_features (sinQ : ℚ → ℚ) (src : RandomSource) (n f : ℕ) (lo hi : ℚ) :
    (generate sinQ src n f lo hi).features =
      (List.range n).map fun i => (List.range f).map fun j =>
        round4 (lo + (hi - lo) * src.unif (i * f + j)) := by
  simp [generate, uniformMatrix, List.map_map, Function.comp]

theorem generate_demand_get? (sinQ : ℚ → ℚ) (src : RandomSource) (n f : ℕ) (lo hi : ℚ)
    (i : ℕ) :
    (generate sinQ src n f lo hi).demand.get? i =
      ((generate sinQ src n f lo hi).features.get? i).map fun r =>
        roundHalfEven (12 * polyVal sinQ r + (4 + 2 * src.gauss (n * f + i))) := by
  simp only [generate]
  rw [applyRows_get?]
  simp [uniformMatrix]

theorem generate_features_length (sinQ : ℚ → ℚ) (src : RandomSource) (n f : ℕ)
    (lo hi : ℚ) : (generate sinQ src n f lo hi).features.length = n := by
  rw [generate_features]
  simp

theorem generate_features_get? (sinQ : ℚ → ℚ) (src : RandomSource) (n f : ℕ) (lo hi : ℚ)
    (i : ℕ) (h : i < n) :
    (generate sinQ src n f lo hi).features.get? i =
      some ((List.range f).map fun j => round4 (lo + (hi - lo) * src.unif (i * f + j))) := by
  rw [generate_features, List.get?_map, List.get?_range h]
  rfl

theorem mul_add_lt_of_lt {i j n f : ℕ} (hi : i < n) (hj : j < f) : i * f + j < n * f := by
  have h1 : i * f + j < (i + 1) * f := by
    have : (i + 1) * f = i * f + f := by ring
    omega
  have h2 : (i + 1) * f ≤ n * f := Nat.mul_le_mul_right f (by omega)
  omega

theorem roundHalfEven_intCast (z : ℤ) : roundHalfEven (z : ℚ) = z := by
  unfold roundHalfEven
  rw [Int.floor_intCast]
  simp

theorem round4_intCast (z : ℤ) : round4 (z : ℚ) = (z : ℚ) := by
  unfold round4
  have h : (z : ℚ) * 10000 = ((z * 10000 : ℤ) : ℚ) := by push_cast; ring
  rw [h, roundHalfEven_intCast]
  push_cast
  field_simp

theorem round4_neg_one : round4 (-1 : ℚ) = -1 := by
  have h : ((-1 : ℤ) : ℚ) = (-1 : ℚ) := by norm_num
  rw [← h, round4_intCast]

/-- A random source whose draws agree with `zeroSource` on the positions a
2 x 2 generation consumes, but differ beyond them. -/
def altSource : RandomSource :=
  ⟨fun k => if k < 4 then 0 else 7, fun k => if k < 6 then 0 else 9⟩

/-- A random source whose Gaussian draws put the pre-rounding Demand value
exactly halfway between two integers. -/
def halfSource : RandomSource := ⟨fun _ => 0, fun _ => 3/20⟩

/-! ## Claims -/

/-- C5: the Observation index column of the generated dataset is exactly the
integer sequence 1..N: unique, contiguous, starting at 1, with no gaps or
repeats. -/
theorem obs_index_exact (sinQ : ℚ → ℚ) (src : RandomSource) (n f : ℕ) (lo hi : ℚ) :
    (generate sinQ src n f lo hi).obs = List.range' 1 n
    ∧ (generate sinQ src n f lo hi).obs = (List.range n).map (· + 1)
    ∧ (generate sinQ src n f lo hi).obs.Nodup
    ∧ (generate sinQ src n f lo hi).obs.length = n := by
  refine ⟨rfl, ?_, ?_, ?_⟩
  · show List.range' 1 n = _
    rw [List.range'_eq_map_range]
    exact List.map_congr_left fun a _ => by omega
  · exact List.nodup_range' 1 n
  · show (List.range' 1 n).length = n
    simp

/-- C6: the generated dataset has exactly n data rows and f + 1 data columns
(each feature row has f entries, the Demand column has n entries) in addition
to the index column of n entries. -/
theorem dataset_shape (sinQ : ℚ → ℚ) (src : RandomSource) (n f : ℕ) (lo hi : ℚ) :
    (generate sinQ src n f lo hi).features.length = n
    ∧ (generate sinQ src n f lo hi).features.map List.length = List.replicate n f
    ∧ (generate sinQ src n f lo hi).demand.length = n
    ∧ (generate sinQ src n f lo hi).obs.length = n := by
  refine ⟨generate_features_length sinQ src n f lo hi, ?_, ?_, ?_⟩
  · rw [generate_features, List.map_map]
    have h : (List.length ∘ fun i => (List.range f).map fun j =>
        round4 (lo + (hi - lo) * src.unif (i * f + j))) = fun _ => f := by
      funext a
      simp
    rw [h, List.map_const']
    simp
  · show (applyRows sinQ _ _).1.length = n
    rw [applyRows_length]
    exact generate_features_length sinQ src n f lo hi
  · show (List.range' 1 n).length = n
    simp

/-- C2: the generated table is a deterministic function of the seeded draw
sequence alone: two generations whose sources agree on the n * f uniform
positions and the n Gaussian positions the run consumes produce identical
tables. -/
theorem generate_deterministic (sinQ : ℚ → ℚ) (s1 s2 : RandomSource) (n f : ℕ)
    (lo hi : ℚ)
    (hu : ∀ k, k < n * f → s1.unif k = s2.unif k)
    (hg : ∀ k, k < n → s1.gauss (n * f + k) = s2.gauss (n * f + k)) :
    generate sinQ s1 n f lo hi = generate sinQ s2 n f lo hi := by
  have hfeat : (generate sinQ s1 n f lo hi).features
      = (generate sinQ s2 n f lo hi).features := by
    rw [generate_features, generate_features]
    refine List.map_congr_left fun i hmi => ?_
    refine List.map_congr_left fun j hmj => ?_
    rw [List.mem_range] at hmi hmj
    rw [hu (i * f + j) (mul_add_lt_of_lt hmi hmj)]
  have hdem : (generate sinQ s1 n f lo hi).demand
      = (generate sinQ s2 n f lo hi).demand := by
    apply List.ext_get?
    intro i
    rw [generate_demand_get?, generate_demand_get?, hfeat]
    by_cases hin : i < n
    · cases hx : (generate sinQ s2 n f lo hi).features.get? i with
      | none => simp
      | some r => simp [hg i hin]
    · rw [List.get?_eq_none.mpr]
      · simp
      · rw [generate_features_length]
        omega
  exact Dataset.ext hfeat hdem rfl

/-- C1: for every row of the generated dataset, the Demand value equals
round(12 * (2 + 0.3 f1 + 0.5 f2^3 + 0.7 f3 f4 + 0.9 (f2 + f4) + sin f5)
+ noise), where f1..f5 are that row's rounded feature values and noise is
that row's Gaussian draw (mean 4, sd 2). -/
theorem demand_matches_formula (sinQ : ℚ → ℚ) (src : RandomSource) (n : ℕ)
    (lo hi : ℚ) (i : ℕ) (fs : List ℚ)
    (hfs : (generate sinQ src n 5 lo hi).features.get? i = some fs) :
    (generate sinQ src n 5 lo hi).demand.get? i =
      some (roundHalfEven (12 * (2 + 3/10 * fs.getD 0 0 + 1/2 * (fs.getD 1 0) ^ 3
        + 7/10 * (fs.getD 2 0) * (fs.getD 3 0) + 9/10 * (fs.getD 1 0 + fs.getD 3 0)
        + sinQ (fs.getD 4 0)) + (4 + 2 * src.gauss (n * 5 + i)))) := by
  rw [generate_demand_get?, hfs]
  simp [polyVal]

/-- C1 witness: on a source whose draws are all zero, the single row has
rounded features [-1, -1, -1, -1, -1], and its Demand value is
round(12 * 0.1 + 4) = round(5.2) = 5, as the formula prescribes. -/
theorem demand_matches_formula_witness :
    ((generate sinZero zeroSource 1 5 (-1) 2).features.get? 0
        = some [-1, -1, -1, -1, -1])
    ∧ (generate sinZero zeroSource 1 5 (-1) 2).demand.get? 0 = some 5 := by
  have hfs : (generate sinZero zeroSource 1 5 (-1) 2).features.get? 0
      = some [-1, -1, -1, -1, -1] := by
    rw [generate_features_get? sinZero zeroSource 1 5 (-1) 2 0 (by norm_num)]
    norm_num [List.range_succ, zeroSource, round4_neg_one]
  refine ⟨hfs, ?_⟩
  rw [demand_matches_formula sinZero zeroSource 1 (-1) 2 0 [-1, -1, -1, -1, -1] hfs]
  have harg : (12 * (2 + 3/10 * ([-1, -1, -1, -1, -1] : List ℚ).getD 0 0
      + 1/2 * (([-1, -1, -1, -1, -1] : List ℚ).getD 1 0) ^ 3
      + 7/10 * (([-1, -1, -1, -1, -1] : List ℚ).getD 2 0)
          * (([-1, -1, -1, -1, -1] : List ℚ).getD 3 0)
      + 9/10 * (([-1, -1, -1, -1, -1] : List ℚ).getD 1 0
          + ([-1, -1, -1, -1, -1] : List ℚ).getD 3 0)
      + sinZero (([-1, -1, -1, -1, -1] : List ℚ).getD 4 0))
      + (4 + 2 * zeroSource.gauss (1 * 5 + 0))) = 26/5 := by
    norm_num [sinZero, zeroSource]
  rw [harg]
  have h5 : roundHalfEven (26/5) = 5 := by
    unfold roundHalfEven
    norm_num
  rw [h5]

/-- C9: the n x f feature matrix is sampled from the seeded source in one
batch occupying draw positions 0 .. n * f - 1 (row-major: row i, column j
uses position i * f + j, which is below n * f), and then exactly one
Gaussian noise value per row is drawn in ascending row order: row i's noise
occupies position n * f + i. -/
theorem draw_order (sinQ : ℚ → ℚ) (src : RandomSource) (n f : ℕ) (lo hi : ℚ)
    (i : ℕ) (h : i < n) :
    ((generate sinQ src n f lo hi).features.get? i
        = some ((List.range f).map fun j => round4 (lo + (hi - lo) * src.unif (i * f + j))))
    ∧ (∀ j ∈ List.range f, i * f + j < n * f)
    ∧ ((generate sinQ src n f lo hi).demand.get? i
        = some (roundHalfEven (12 * polyVal sinQ ((List.range f).map fun j =>
            round4 (lo + (hi - lo) * src.unif (i * f + j)))
            + (4 + 2 * src.gauss (n * f + i))))) := by
  have hfs := generate_features_get? sinQ src n f lo hi i h
  refine ⟨hfs, ?_, ?_⟩
  · intro j hj
    rw [List.mem_range] at hj
    exact mul_add_lt_of_lt h hj
  · rw [generate_demand_get?, hfs]
    rfl

/-- C9 witness: instantiated on the all-zero source with one row of five
features. -/
theorem draw_order_witness :
    (0 < 1)
    ∧ (((generate sinZero zeroSource 1 5 (-1) 2).features.get? 0
        = some ((List.range 5).map fun j =>
            round4 (-1 + (2 - -1) * zeroSource.unif (0 * 5 + j))))
    ∧ (∀ j ∈ List.range 5, 0 * 5 + j < 1 * 5)
    ∧ ((generate sinZero zeroSource 1 5 (-1) 2).demand.get? 0
        = some (roundHalfEven (12 * polyVal sinZero ((List.range 5).map fun j =>
            round4 (-1 + (2 - -1) * zeroSource.unif (0 * 5 + j)))
            + (4 + 2 * zeroSource.gauss (1 * 5 + 0)))))) :=
  ⟨by norm_num, draw_order sinZero zeroSource 1 5 (-1) 2 0 (by norm_num)⟩

/-- C8: the final integer rounding of Demand is round-half-to-even
(banker's rounding, the semantics of Python's builtin round): whenever a
row's pre-rounding value 12 * value + noise is exactly halfway between two
integers, the chosen Demand value is the even one of the two neighbours. -/
theorem demand_round_half_even (sinQ : ℚ → ℚ) (src : RandomSource) (n f : ℕ)
    (lo hi : ℚ) (i : ℕ) (fs : List ℚ)
    (hfs : (generate sinQ src n f lo hi).features.get? i = some fs)
    (hhalf : 12 * polyVal sinQ fs + (4 + 2 * src.gauss (n * f + i))
        - ⌊12 * polyVal sinQ fs + (4 + 2 * src.gauss (n * f + i))⌋ = 1/2) :
    ∃ d : ℤ, (generate sinQ src n f lo hi).demand.get? i = some d
      ∧ d % 2 = 0
      ∧ (d = ⌊12 * polyVal sinQ fs + (4 + 2 * src.gauss (n * f + i))⌋
         ∨ d = ⌊12 * polyVal sinQ fs + (4 + 2 * src.gauss (n * f + i))⌋ + 1) := by
  refine ⟨roundHalfEven (12 * polyVal sinQ fs + (4 + 2 * src.gauss (n * f + i))),
    ?_, ?_, ?_⟩
  · rw [generate_demand_get?, hfs]
    rfl
  · exact roundHalfEven_halfway_even _ hhalf
  · exact roundHalfEven_cases _

/-- C8 witness: with all-zero uniform draws and Gaussian draws equal to
3/20, the single row's pre-rounding value is 12 * 0.1 + (4 + 0.3) = 5.5,
exactly halfway; the Demand value chosen is the even neighbour 6. -/
theorem demand_round_half_even_witness :
    ((generate sinZero halfSource 1 5 (-1) 2).features.get? 0
        = some [-1, -1, -1, -1, -1])
    ∧ (12 * polyVal sinZero [-1, -1, -1, -1, -1]
        + (4 + 2 * halfSource.gauss (1 * 5 + 0))
        - ⌊12 * polyVal sinZero [-1, -1, -1, -1, -1]
            + (4 + 2 * halfSource.gauss (1 * 5 + 0))⌋ = 1/2)
    ∧ ∃ d : ℤ, (generate sinZero halfSource 1 5 (-1) 2).demand.get? 0 = some d
      ∧ d % 2 = 0
      ∧ (d = ⌊12 * polyVal sinZero [-1, -1, -1, -1, -1]
            + (4 + 2 * halfSource.gauss (1 * 5 + 0))⌋
         ∨ d = ⌊12 * polyVal sinZero [-1, -1, -1, -1, -1]
            + (4 + 2 * halfSource.gauss (1 * 5 + 0))⌋ + 1) := by
  have hfs : (generate sinZero halfSource 1 5 (-1) 2).features.get? 0
      = some [-1, -1, -1, -1, -1] := by
    rw [generate_features_get? sinZero halfSource 1 5 (-1) 2 0 (by norm_num)]
    norm_num [List.range_succ, halfSource, round4_neg_one]
  have hval : 12 * polyVal sinZero [-1, -1, -1, -1, -1]
      + (4 + 2 * halfSource.gauss (1 * 5 + 0)) = 11/2 := by
    norm_num [polyVal, sinZero, halfSource]
  have hhalf : 12 * polyVal sinZero [-1, -1, -1, -1, -1]
      + (4 + 2 * halfSource.gauss (1 * 5 + 0))
      - ⌊12 * polyVal sinZero [-1, -1, -1, -1, -1]
          + (4 + 2 * halfSource.gauss (1 * 5 + 0))⌋ = 1/2 := by
    rw [hval]
    norm_num
  exact ⟨hfs, hhalf,
    demand_round_half_even sinZero halfSource 1 5 (-1) 2 0 [-1, -1, -1, -1, -1] hfs hhalf⟩

/-- C2 witness: two sources that agree on the 4 uniform and 2 Gaussian
positions a 2 x 2 run consumes, but differ beyond them, generate the same
table. -/
theorem generate_deterministic_witness :
    (∀ k, k < 2 * 2 → zeroSource.unif k = altSource.unif k)
    ∧ (∀ k, k < 2 → zeroSource.gauss (2 * 2 + k) = altSource.gauss (2 * 2 + k))
    ∧ generate sinZero zeroSource 2 2 0 1 = generate sinZero altSource 2 2 0 1 := by
  have hu : ∀ k, k < 2 * 2 → zeroSource.unif k = altSource.unif k := by
    intro k hk
    simp only [zeroSource, altSource]
    rw [if_pos (by omega)]
  have hg : ∀ k, k < 2 → zeroSource.gauss (2 * 2 + k) = altSource.gauss (2 * 2 + k) := by
    intro k hk
    simp only [zeroSource, altSource]
    rw [if_pos (by omega)]
  exact ⟨hu, hg, generate_deterministic sinZero zeroSource altSource 2 2 0 1 hu hg⟩

/-- C4: with raw uniform draws in [0, 1) (numpy's contract for the seeded
source), every feature value of the generated dataset lies in [-1, 2] after
rounding to 4 decimal places, and every sampled value lies in the interval
[-1, 2] before rounding. -/
theorem features_within_range (sinQ : ℚ → ℚ) (src : RandomSource) (n : ℕ)
    (hsrc : ∀ k, 0 ≤ src.unif k ∧ src.unif k < 1) :
    (∀ row ∈ (generate sinQ src n 5 (-1) 2).features, ∀ q ∈ row, -1 ≤ q ∧ q ≤ 2)
    ∧ ∀ row ∈ (uniformMatrix (-1) 2 n 5 ⟨src, 0⟩).1, ∀ x ∈ row, -1 ≤ x ∧ x ≤ 2 := by
  constructor
  · intro row hrow q hq
    rw [generate_features] at hrow
    obtain ⟨i, _, rfl⟩ := List.mem_map.mp hrow
    obtain ⟨j, _, rfl⟩ := List.mem_map.mp hq
    obtain ⟨h0, h1⟩ := hsrc (i * 5 + j)
    exact round4_mem_Icc (by linarith) (by linarith)
  · intro row hrow x hx
    simp only [uniformMatrix] at hrow
    obtain ⟨i, _, rfl⟩ := List.mem_map.mp hrow
    obtain ⟨j, _, rfl⟩ := List.mem_map.mp hx
    obtain ⟨h0, h1⟩ := hsrc (0 + (i * 5 + j))
    constructor
    · linarith
    · linarith

/-- C4 witness: the all-zero source has every raw draw in [0, 1), and its
generated feature values all lie in [-1, 2]. -/
theorem features_within_range_witness :
    (∀ k, 0 ≤ zeroSource.unif k ∧ zeroSource.unif k < 1)
    ∧ ((∀ row ∈ (generate sinZero zeroSource 3 5 (-1) 2).features, ∀ q ∈ row,
          -1 ≤ q ∧ q ≤ 2)
    ∧ ∀ row ∈ (uniformMatrix (-1) 2 3 5 ⟨zeroSource, 0⟩).1, ∀ x ∈ row,
          -1 ≤ x ∧ x ≤ 2) :=
  ⟨fun k => by norm_num [zeroSource],
    features_within_range sinZero zeroSource 3 (fun k => by norm_num [zeroSource])⟩

/-- C10: feature sampling is half-open: with raw uniform draws in [0, 1),
every sampled value is strictly below hi = 2 before rounding, and the
rounded value 2 appears exactly for sampled values in [1.99995, 2); the
dataset's feature matrix is the rounding of that sampled matrix. -/
theorem half_open_sampling (sinQ : ℚ → ℚ) (src : RandomSource) (n : ℕ)
    (hsrc : ∀ k, 0 ≤ src.unif k ∧ src.unif k < 1) :
    ((generate sinQ src n 5 (-1) 2).features
        = ((uniformMatrix (-1) 2 n 5 ⟨src, 0⟩).1).map (List.map round4))
    ∧ ∀ row ∈ (uniformMatrix (-1) 2 n 5 ⟨src, 0⟩).1, ∀ x ∈ row,
        x < 2 ∧ (round4 x = 2 ↔ 39999/20000 ≤ x) := by
  constructor
  · rfl
  · intro row hrow x hx
    simp only [uniformMatrix] at hrow
    obtain ⟨i, _, rfl⟩ := List.mem_map.mp hrow
    obtain ⟨j, _, rfl⟩ := List.mem_map.mp hx
    obtain ⟨h0, h1⟩ := hsrc (0 + (i * 5 + j))
    have hlt : -1 + (2 - -1) * src.unif (0 + (i * 5 + j)) < 2 := by linarith
    exact ⟨hlt, round4_eq_two_iff hlt⟩

/-- C10 witness: instantiated on the all-zero source. -/
theorem half_open_sampling_witness :
    (∀ k, 0 ≤ zeroSource.unif k ∧ zeroSource.unif k < 1)
    ∧ (((generate sinZero zeroSource 3 5 (-1) 2).features
        = ((uniformMatrix (-1) 2 3 5 ⟨zeroSource, 0⟩).1).map (List.map round4))
    ∧ ∀ row ∈ (uniformMatrix (-1) 2 3 5 ⟨zeroSource, 0⟩).1, ∀ x ∈ row,
        x < 2 ∧ (round4 x = 2 ↔ 39999/20000 ≤ x)) :=
  ⟨fun k => by norm_num [zeroSource],
    half_open_sampling sinZero zeroSource 3 (fun k => by norm_num [zeroSource])⟩

/-- C7: the output table's header row is
Observation,Feature_1,...,Feature_5,Demand (the labeled index column first,
then one column per feature, then Demand); there is one data row per
observation, indexed 1..n; every feature value has at most 4 digits after
the decimal point (its product with 10000 is an integer); and every Demand
value is an integer. -/
theorem output_format (sinQ : ℚ → ℚ) (src : RandomSource) (n f : ℕ) (lo hi : ℚ) :
    headerLine 5 = "Observation,Feature_1,Feature_2,Feature_3,Feature_4,Feature_5,Demand"
    ∧ (headerCells f).length = f + 2
    ∧ (generate sinQ src n f lo hi).features.length = n
    ∧ (generate sinQ src n f lo hi).obs = List.range' 1 n
    ∧ (generate sinQ src n f lo hi).features.map (List.map fun q => (q * 10000).den)
        = List.replicate n (List.replicate f 1)
    ∧ (generate sinQ src n f lo hi).demand.map (fun d : ℤ => ((d : ℚ)).den)
        = List.replicate n 1 := by
  refine ⟨by rfl, ?_, generate_features_length sinQ src n f lo hi, rfl, ?_, ?_⟩
  · simp [headerCells]
  · rw [generate_features, List.map_map]
    have h : ((List.map fun q => (q * 10000).den) ∘ fun i =>
        (List.range f).map fun j => round4 (lo + (hi - lo) * src.unif (i * f + j)))
        = fun _ => List.replicate f 1 := by
      funext a
      simp only [Function.comp, List.map_map]
      have h2 : ((fun q => (q * 10000).den) ∘ fun j =>
          round4 (lo + (hi - lo) * src.unif (a * f + j))) = fun _ => 1 := by
        funext b
        exact round4_mul_den _
      rw [h2, List.map_const']
      simp
    rw [h, List.map_const']
    simp
  · have hlist : ∀ (ds : List ℤ), ds.map (fun d : ℤ => ((d : ℚ)).den) = List.replicate ds.length 1 := by
      intro ds
      have h : (fun d : ℤ => ((d : ℚ)).den) = fun _ => 1 := by
        funext d
        exact Rat.den_intCast d
      rw [h, List.map_const']
    rw [hlist]
    congr 1
    show (applyRows sinQ _ _).1.length = n
    rw [applyRows_length]
    exact generate_features_length sinQ src n f lo hi

end GenData
